import Mathlib

/-!
Verification of the marvelsnapdeck deck-code library.

The library converts a `DeckList` (a deck name plus an ordered list of card
identifiers) to and from a shareable text code.  The code is the unpadded
standard-alphabet Base64 encoding of the UTF-8 bytes of a compact JSON
document `{"Name": ..., "Cards": [{"CardDefId": ...}, ...]}` (braces shown
here only in prose).  This file gives an executable shallow embedding of the
whole pipeline — Base64, UTF-8, JSON printing, JSON parsing and the
serde-style deserialization into `DeckList` — and proves the specification
claims about it.
-/

/-! ### Base64, standard alphabet, no padding

Model of the `base64` crate engine `general_purpose::STANDARD_NO_PAD`.
Bytes are modelled as `Nat` values below 256. -/

/-- The RFC 4648 standard Base64 alphabet, as a table indexed by 6-bit value. -/
def b64Alphabet : List Char :=
  ("ABCDEFGHIJKLMNOPQRSTUVWXYZabcdefghijklmnopqrstuvwxyz0123456789+/" : String).data

/-- The character encoding a 6-bit value.  The crate indexes its encode table
with values that are below 64 by construction; the reduction mod 64 here only
totalizes the lookup and agrees with the table on every reachable input. -/
def b64EncChar (n : Nat) : Char := b64Alphabet.getD (n % 64) 'A'

/-- The 6-bit value of an alphabet character, `none` for characters outside
the alphabet (including the padding character). -/
def b64CharVal (c : Char) : Option Nat :=
  let n := c.toNat
  if 65 ≤ n ∧ n ≤ 90 then some (n - 65)
  else if 97 ≤ n ∧ n ≤ 122 then some (n - 71)
  else if 48 ≤ n ∧ n ≤ 57 then some (n + 4)
  else if n = 43 then some 62
  else if n = 47 then some 63
  else none

/-- Model of the `base64` crate error type `DecodeError`. -/
inductive DecodeError where
  | InvalidByte (offset : Nat) (byte : Nat)
  | InvalidLength (len : Nat)
  | InvalidLastSymbol (offset : Nat) (byte : Nat)
  | InvalidPadding
  deriving Repr, DecidableEq

/-- Base64-encode a byte list: three bytes become four alphabet characters,
a final remainder of one or two bytes becomes two or three characters, and
no padding is emitted. -/
def b64encode : List Nat → List Char
  | [] => []
  | [b1] => [b64EncChar (b1 / 4), b64EncChar (b1 % 4 * 16)]
  | [b1, b2] =>
      [b64EncChar (b1 / 4), b64EncChar (b1 % 4 * 16 + b2 / 16),
       b64EncChar (b2 % 16 * 4)]
  | b1 :: b2 :: b3 :: rest =>
      b64EncChar (b1 / 4) :: b64EncChar (b1 % 4 * 16 + b2 / 16) ::
      b64EncChar (b2 % 16 * 4 + b3 / 64) :: b64EncChar (b3 % 64) ::
      b64encode rest

/-- Decode one character at a given offset, classifying failures the way the
crate does: the padding character is rejected by the no-pad engine, any other
non-alphabet character is an invalid byte. -/
def b64val (i : Nat) (c : Char) : Except DecodeError Nat :=
  match b64CharVal c with
  | some v => .ok v
  | none => if c = '=' then .error .InvalidPadding
            else .error (.InvalidByte i c.toNat)

/-- Decode the chunk stream: full four-character chunks yield three bytes,
a final chunk of two or three characters yields one or two bytes provided the
trailing bits are zero. -/
def b64decodeChunks (i : Nat) : List Char → Except DecodeError (List Nat)
  | [] => .ok []
  | [c1] =>
      match b64val i c1 with
      | .error e => .error e
      | .ok _ => .error (.InvalidLength 1)
  | [c1, c2] =>
      match b64val i c1, b64val (i + 1) c2 with
      | .ok v1, .ok v2 =>
          if v2 % 16 = 0 then .ok [v1 * 4 + v2 / 16]
          else .error (.InvalidLastSymbol (i + 1) c2.toNat)
      | .error e, _ => .error e
      | _, .error e => .error e
  | [c1, c2, c3] =>
      match b64val i c1, b64val (i + 1) c2, b64val (i + 2) c3 with
      | .ok v1, .ok v2, .ok v3 =>
          if v3 % 4 = 0 then .ok [v1 * 4 + v2 / 16, v2 % 16 * 16 + v3 / 4]
          else .error (.InvalidLastSymbol (i + 2) c3.toNat)
      | .error e, _, _ => .error e
      | _, .error e, _ => .error e
      | _, _, .error e => .error e
  | c1 :: c2 :: c3 :: c4 :: rest =>
      match b64val i c1, b64val (i + 1) c2, b64val (i + 2) c3, b64val (i + 3) c4 with
      | .ok v1, .ok v2, .ok v3, .ok v4 =>
          match b64decodeChunks (i + 4) rest with
          | .ok tail =>
              .ok ((v1 * 4 + v2 / 16) :: (v2 % 16 * 16 + v3 / 4) ::
                   (v3 % 4 * 64 + v4) :: tail)
          | .error e => .error e
      | .error e, _, _, _ => .error e
      | _, .error e, _, _ => .error e
      | _, _, .error e, _ => .error e
      | _, _, _, .error e => .error e

/-- Base64-decode in the no-pad scheme: a length congruent to 1 mod 4 is
invalid outright, otherwise the chunk stream is decoded. -/
def b64decode (cs : List Char) : Except DecodeError (List Nat) :=
  if cs.length % 4 = 1 then .error (.InvalidLength cs.length)
  else b64decodeChunks 0 cs

theorem b64CharVal_encChar : ∀ n < 64, b64CharVal (b64EncChar n) = some n := by
  decide

theorem b64EncChar_ne_eq (n : Nat) : b64EncChar n ≠ '=' := by
  have h : n % 64 < 64 := Nat.mod_lt _ (by omega)
  exact (by decide : ∀ m < 64, b64Alphabet.getD m 'A' ≠ '=') (n % 64) h

theorem b64val_encChar (i : Nat) (n : Nat) (h : n < 64) :
    b64val i (b64EncChar n) = .ok n := by
  simp [b64val, b64CharVal_encChar n h]

theorem b64encode_length_mod (bs : List Nat) :
    (b64encode bs).length % 4 ≠ 1 := by
  induction bs using b64encode.induct <;> simp [b64encode, *] <;> omega

theorem b64encode_ne_pad (bs : List Nat) :
    ∀ c ∈ b64encode bs, c ≠ '=' := by
  induction bs using b64encode.induct with
  | case1 => simp [b64encode]
  | case2 b1 =>
      simp [b64encode]
      exact ⟨b64EncChar_ne_eq _, b64EncChar_ne_eq _⟩
  | case3 b1 b2 =>
      simp [b64encode]
      exact ⟨b64EncChar_ne_eq _, b64EncChar_ne_eq _, b64EncChar_ne_eq _⟩
  | case4 b1 b2 b3 rest ih =>
      simp [b64encode]
      exact ⟨b64EncChar_ne_eq _, b64EncChar_ne_eq _, b64EncChar_ne_eq _,
             b64EncChar_ne_eq _, fun a ha => ih a ha⟩

theorem b64decodeChunks_encode (bs : List Nat) (hb : ∀ b ∈ bs, b < 256) :
    ∀ i, b64decodeChunks i (b64encode bs) = .ok bs := by
  induction bs using b64encode.induct with
  | case1 =>
      intro i
      simp [b64encode, b64decodeChunks]
  | case2 b1 =>
      intro i
      have h1 : b1 < 256 := hb b1 (by simp)
      have e1 : b1 / 4 < 64 := by omega
      have e2 : b1 % 4 * 16 < 64 := by omega
      simp [b64encode, b64decodeChunks, b64val_encChar _ _ e1, b64val_encChar _ _ e2]
      omega
  | case3 b1 b2 =>
      intro i
      have h1 : b1 < 256 := hb b1 (by simp)
      have h2 : b2 < 256 := hb b2 (by simp)
      have e1 : b1 / 4 < 64 := by omega
      have e2 : b1 % 4 * 16 + b2 / 16 < 64 := by omega
      have e3 : b2 % 16 * 4 < 64 := by omega
      simp [b64encode, b64decodeChunks, b64val_encChar _ _ e1,
            b64val_encChar _ _ e2, b64val_encChar _ _ e3]
      omega
  | case4 b1 b2 b3 rest ih =>
      intro i
      have h1 : b1 < 256 := hb b1 (by simp)
      have h2 : b2 < 256 := hb b2 (by simp)
      have h3 : b3 < 256 := hb b3 (by simp)
      have hrest : ∀ b ∈ rest, b < 256 := fun b hm => hb b (by simp [hm])
      have e1 : b1 / 4 < 64 := by omega
      have e2 : b1 % 4 * 16 + b2 / 16 < 64 := by omega
      have e3 : b2 % 16 * 4 + b3 / 64 < 64 := by omega
      have e4 : b3 % 64 < 64 := by omega
      simp [b64encode, b64decodeChunks, b64val_encChar _ _ e1,
            b64val_encChar _ _ e2, b64val_encChar _ _ e3, b64val_encChar _ _ e4,
            ih hrest (i + 4)]
      omega

theorem b64decode_encode (bs : List Nat) (hb : ∀ b ∈ bs, b < 256) :
    b64decode (b64encode bs) = .ok bs := by
  simp [b64decode, b64encode_length_mod bs, b64decodeChunks_encode bs hb 0]

theorem b64val_err_of_none (i : Nat) (c : Char) (hv : b64CharVal c = none) :
    ∃ e, b64val i c = .error e := by
  simp [b64val, hv]
  by_cases h : c = '=' <;> simp [h]

theorem b64decodeChunks_err_of_badchar :
    ∀ (n : Nat) (cs : List Char), cs.length ≤ n →
    (∃ c ∈ cs, b64CharVal c = none) →
    ∀ i, ∃ e, b64decodeChunks i cs = .error e := by
  intro n
  induction n with
  | zero =>
      intro cs hlen hc i
      have : cs = [] := List.eq_nil_of_length_eq_zero (by omega)
      subst this
      simp at hc
  | succ n ih =>
      intro cs hlen hc i
      match cs with
      | [] => simp at hc
      | [c1] =>
          rcases hc with ⟨c, hm, hv⟩
          simp at hm
          subst hm
          rcases b64val_err_of_none i c hv with ⟨e, he⟩
          simp [b64decodeChunks, he]
      | [c1, c2] =>
          rcases hc with ⟨c, hm, hv⟩
          simp at hm
          rcases hm with hm | hm <;> subst hm
          · rcases b64val_err_of_none i c hv with ⟨e, he⟩
            simp [b64decodeChunks, he]
          · rcases b64val_err_of_none (i + 1) c hv with ⟨e, he⟩
            cases hv1 : b64val i c1 <;> simp [b64decodeChunks, hv1, he]
      | [c1, c2, c3] =>
          rcases hc with ⟨c, hm, hv⟩
          simp at hm
          rcases hm with hm | hm | hm <;> subst hm
          · rcases b64val_err_of_none i c hv with ⟨e, he⟩
            simp [b64decodeChunks, he]
          · rcases b64val_err_of_none (i + 1) c hv with ⟨e, he⟩
            cases hv1 : b64val i c1 <;> simp [b64decodeChunks, hv1, he]
          · rcases b64val_err_of_none (i + 2) c hv with ⟨e, he⟩
            cases hv1 : b64val i c1 <;>
              cases hv2 : b64val (i + 1) c2 <;>
              simp [b64decodeChunks, hv1, hv2, he]
      | c1 :: c2 :: c3 :: c4 :: rest =>
          rcases hc with ⟨c, hm, hv⟩
          simp at hm
          rcases hm with hm | hm | hm | hm | hm
          · subst hm
            rcases b64val_err_of_none i c hv with ⟨e, he⟩
            simp [b64decodeChunks, he]
          · subst hm
            rcases b64val_err_of_none (i + 1) c hv with ⟨e, he⟩
            cases hv1 : b64val i c1 <;> simp [b64decodeChunks, hv1, he]
          · subst hm
            rcases b64val_err_of_none (i + 2) c hv with ⟨e, he⟩
            cases hv1 : b64val i c1 <;>
              cases hv2 : b64val (i + 1) c2 <;>
              simp [b64decodeChunks, hv1, hv2, he]
          · subst hm
            rcases b64val_err_of_none (i + 3) c hv with ⟨e, he⟩
            cases hv1 : b64val i c1 <;>
              cases hv2 : b64val (i + 1) c2 <;>
              cases hv3 : b64val (i + 2) c3 <;>
              simp [b64decodeChunks, hv1, hv2, hv3, he]
          · have hlen2 : rest.length ≤ n := by
              simp at hlen
              omega
            rcases ih rest hlen2 ⟨c, hm, hv⟩ (i + 4) with ⟨e, he⟩
            cases hv1 : b64val i c1 <;>
              cases hv2 : b64val (i + 1) c2 <;>
              cases hv3 : b64val (i + 2) c3 <;>
              cases hv4 : b64val (i + 3) c4 <;>
              simp [b64decodeChunks, hv1, hv2, hv3, hv4, he]

theorem b64decode_err_of_badchar (cs : List Char)
    (hc : ∃ c ∈ cs, b64CharVal c = none) :
    ∃ e, b64decode cs = .error e := by
  unfold b64decode
  by_cases h : cs.length % 4 = 1
  · simp [h]
  · simp [h]
    exact b64decodeChunks_err_of_badchar cs.length cs (le_refl _) hc 0

theorem b64decode_err_of_badlen (cs : List Char)
    (hl : cs.length % 4 = 1) :
    ∃ e, b64decode cs = .error e := by
  simp [b64decode, hl]

/-! ### UTF-8

Model of Rust string-to-bytes conversion and of the UTF-8 validation done
when parsing bytes back into strings.  A `Char` in Lean carries the same
validity invariant as a Rust `char` (a Unicode scalar value), so encoding is
total and decoding rejects exactly the invalid byte sequences: bad leading
bytes, bad continuation bytes, overlong forms, surrogates and values above
0x10FFFF. -/

/-- UTF-8 encoding of one scalar value. -/
def utf8EncodeChar (c : Char) : List Nat :=
  let n := c.toNat
  if n < 0x80 then [n]
  else if n < 0x800 then [0xC0 + n / 64, 0x80 + n % 64]
  else if n < 0x10000 then
    [0xE0 + n / 4096, 0x80 + n / 64 % 64, 0x80 + n % 64]
  else
    [0xF0 + n / 262144, 0x80 + n / 4096 % 64, 0x80 + n / 64 % 64, 0x80 + n % 64]

/-- UTF-8 encoding of a character list. -/
def utf8Encode : List Char → List Nat
  | [] => []
  | c :: cs => utf8EncodeChar c ++ utf8Encode cs

/-- Decode one UTF-8 scalar from the front of a byte list, with full
validation: bad leading bytes, bad continuation bytes, overlong forms,
surrogates and out-of-range values are all rejected. -/
def utf8DecodeStep : List Nat → Option (Char × List Nat)
  | [] => none
  | b1 :: rest =>
    if b1 < 0x80 then some (Char.ofNat b1, rest)
    else if b1 < 0xC2 then none
    else if b1 < 0xE0 then
      match rest with
      | b2 :: rest2 =>
        if 0x80 ≤ b2 ∧ b2 < 0xC0 then
          some (Char.ofNat ((b1 - 0xC0) * 64 + (b2 - 0x80)), rest2)
        else none
      | [] => none
    else if b1 < 0xF0 then
      match rest with
      | b2 :: b3 :: rest3 =>
        if (0x80 ≤ b2 ∧ b2 < 0xC0) ∧ (0x80 ≤ b3 ∧ b3 < 0xC0) then
          if 0x800 ≤ (b1 - 0xE0) * 4096 + (b2 - 0x80) * 64 + (b3 - 0x80) ∧
             ¬(0xD800 ≤ (b1 - 0xE0) * 4096 + (b2 - 0x80) * 64 + (b3 - 0x80) ∧
               (b1 - 0xE0) * 4096 + (b2 - 0x80) * 64 + (b3 - 0x80) < 0xE000) then
            some (Char.ofNat ((b1 - 0xE0) * 4096 + (b2 - 0x80) * 64 + (b3 - 0x80)), rest3)
          else none
        else none
      | _ => none
    else if b1 < 0xF5 then
      match rest with
      | b2 :: b3 :: b4 :: rest4 =>
        if (0x80 ≤ b2 ∧ b2 < 0xC0) ∧ (0x80 ≤ b3 ∧ b3 < 0xC0) ∧
           (0x80 ≤ b4 ∧ b4 < 0xC0) then
          if 0x10000 ≤ (b1 - 0xF0) * 262144 + (b2 - 0x80) * 4096 +
               (b3 - 0x80) * 64 + (b4 - 0x80) ∧
             (b1 - 0xF0) * 262144 + (b2 - 0x80) * 4096 +
               (b3 - 0x80) * 64 + (b4 - 0x80) < 0x110000 then
            some (Char.ofNat ((b1 - 0xF0) * 262144 + (b2 - 0x80) * 4096 +
                  (b3 - 0x80) * 64 + (b4 - 0x80)), rest4)
          else none
        else none
      | _ => none
    else none

/-- Fuel-bounded decode loop; the fuel is an upper bound on the number of
scalars and is always instantiated with the byte count. -/
def utf8DecodeLoop : Nat → List Nat → Option (List Char)
  | _, [] => some []
  | 0, _ :: _ => none
  | fuel + 1, b :: bs =>
    match utf8DecodeStep (b :: bs) with
    | some (c, rest) => (utf8DecodeLoop fuel rest).map (fun cs => c :: cs)
    | none => none

/-- UTF-8 decoding of a whole byte list. -/
def utf8Decode (bs : List Nat) : Option (List Char) :=
  utf8DecodeLoop bs.length bs

theorem char_toNat_valid (c : Char) :
    c.toNat < 0xD800 ∨ (0xE000 ≤ c.toNat ∧ c.toNat < 0x110000) := by
  have h := c.valid
  simp [UInt32.isValidChar, Nat.isValidChar, Char.toNat] at h ⊢
  omega

theorem utf8EncodeChar_lt_256 (c : Char) : ∀ b ∈ utf8EncodeChar c, b < 256 := by
  have hv := char_toNat_valid c
  unfold utf8EncodeChar
  by_cases h1 : c.toNat < 0x80 <;> by_cases h2 : c.toNat < 0x800 <;>
    by_cases h3 : c.toNat < 0x10000 <;> simp [h1, h2, h3] <;> omega

theorem utf8Encode_lt_256 (cs : List Char) : ∀ b ∈ utf8Encode cs, b < 256 := by
  induction cs with
  | nil => simp [utf8Encode]
  | cons c cs ih =>
      simp [utf8Encode]
      intro b hb
      rcases hb with hb | hb
      · exact utf8EncodeChar_lt_256 c b hb
      · exact ih b hb

theorem utf8DecodeStep_encodeChar (c : Char) (bs : List Nat) :
    utf8DecodeStep (utf8EncodeChar c ++ bs) = some (c, bs) := by
  have hv := char_toNat_valid c
  by_cases h1 : c.toNat < 0x80
  · have he : utf8EncodeChar c = [c.toNat] := by simp [utf8EncodeChar, h1]
    rw [he]
    simp only [List.cons_append, List.nil_append, utf8DecodeStep]
    rw [if_pos h1, Char.ofNat_toNat]
  · by_cases h2 : c.toNat < 0x800
    · have he : utf8EncodeChar c = [0xC0 + c.toNat / 64, 0x80 + c.toNat % 64] := by
        simp [utf8EncodeChar, h1, h2]
      rw [he]
      simp only [List.cons_append, List.nil_append, utf8DecodeStep]
      rw [if_neg (by omega), if_neg (by omega), if_pos (by omega),
          if_pos (by omega)]
      have harg : (0xC0 + c.toNat / 64 - 0xC0) * 64 + (0x80 + c.toNat % 64 - 0x80)
          = c.toNat := by omega
      rw [harg, Char.ofNat_toNat]
    · by_cases h3 : c.toNat < 0x10000
      · have he : utf8EncodeChar c =
            [0xE0 + c.toNat / 4096, 0x80 + c.toNat / 64 % 64, 0x80 + c.toNat % 64] := by
          simp [utf8EncodeChar, h1, h2, h3]
        rw [he]
        simp only [List.cons_append, List.nil_append, utf8DecodeStep]
        rw [if_neg (by omega), if_neg (by omega), if_neg (by omega),
            if_pos (by omega), if_pos (by omega), if_pos (by omega)]
        have harg : (0xE0 + c.toNat / 4096 - 0xE0) * 4096 +
            (0x80 + c.toNat / 64 % 64 - 0x80) * 64 + (0x80 + c.toNat % 64 - 0x80)
            = c.toNat := by omega
        rw [harg, Char.ofNat_toNat]
      · have he : utf8EncodeChar c =
            [0xF0 + c.toNat / 262144, 0x80 + c.toNat / 4096 % 64,
             0x80 + c.toNat / 64 % 64, 0x80 + c.toNat % 64] := by
          simp [utf8EncodeChar, h1, h2, h3]
        rw [he]
        simp only [List.cons_append, List.nil_append, utf8DecodeStep]
        rw [if_neg (by omega), if_neg (by omega), if_neg (by omega),
            if_neg (by omega), if_pos (by omega), if_pos (by omega),
            if_pos (by omega)]
        have harg : (0xF0 + c.toNat / 262144 - 0xF0) * 262144 +
            (0x80 + c.toNat / 4096 % 64 - 0x80) * 4096 +
            (0x80 + c.toNat / 64 % 64 - 0x80) * 64 + (0x80 + c.toNat % 64 - 0x80)
            = c.toNat := by omega
        rw [harg, Char.ofNat_toNat]

theorem utf8EncodeChar_ne_nil (c : Char) : utf8EncodeChar c ≠ [] := by
  unfold utf8EncodeChar
  by_cases h1 : c.toNat < 0x80 <;> by_cases h2 : c.toNat < 0x800 <;>
    by_cases h3 : c.toNat < 0x10000 <;> simp [h1, h2, h3]

theorem utf8DecodeLoop_encode (cs : List Char) :
    ∀ fuel, (utf8Encode cs).length ≤ fuel →
    utf8DecodeLoop fuel (utf8Encode cs) = some cs := by
  induction cs with
  | nil =>
      intro fuel _
      show utf8DecodeLoop fuel [] = some []
      cases fuel <;> rfl
  | cons c cs ih =>
      intro fuel hlen
      have hcons : ∃ b bs2, utf8EncodeChar c = b :: bs2 := by
        cases he : utf8EncodeChar c with
        | nil => exact absurd he (utf8EncodeChar_ne_nil c)
        | cons b bs2 => exact ⟨b, bs2, rfl⟩
      rcases hcons with ⟨b, bs2, he⟩
      have hlist : utf8Encode (c :: cs) = b :: (bs2 ++ utf8Encode cs) := by
        show utf8EncodeChar c ++ utf8Encode cs = _
        rw [he]
        simp
      rw [hlist] at hlen ⊢
      match fuel with
      | 0 => simp at hlen
      | fuel + 1 =>
          have hstep : utf8DecodeStep (b :: (bs2 ++ utf8Encode cs)) = some (c, utf8Encode cs) := by
            have := utf8DecodeStep_encodeChar c (utf8Encode cs)
            rw [he] at this
            simpa using this
          have hfl : (utf8Encode cs).length ≤ fuel := by
            simp at hlen
            omega
          rw [utf8DecodeLoop, hstep]
          simp [ih fuel hfl]

theorem utf8Decode_encode (cs : List Char) :
    utf8Decode (utf8Encode cs) = some cs :=
  utf8DecodeLoop_encode cs (utf8Encode cs).length (le_refl _)

/-! ### JSON

Model of the JSON documents handled by serde_json: an abstract syntax tree,
the compact printer used by serialization (field order preserved, minimal
string escaping, no added whitespace), and a validating parser for the full
JSON grammar (whitespace, all escape forms including surrogate pairs, and
the number grammar).  Numeric literals are kept as their lexemes, which is
all the library ever needs: the deck record itself contains only strings. -/

inductive Json where
  | null
  | bool (b : Bool)
  | num (s : String)
  | str (s : String)
  | arr (elems : List Json)
  | obj (members : List (String × Json))
  deriving Repr

/-- Lowercase hexadecimal digit, as serde_json writes in escapes. -/
def hexDigit (n : Nat) : Char :=
  if n < 10 then Char.ofNat (48 + n) else Char.ofNat (87 + n)

/-- serde_json escapes the quote, the backslash and every control character
below 0x20 (short forms where they exist, otherwise a hex escape); every
other character is written as-is. -/
def escapeChar (c : Char) : List Char :=
  if c = '"' then ['\\', '"']
  else if c = '\\' then ['\\', '\\']
  else if c.toNat = 8 then ['\\', 'b']
  else if c.toNat = 9 then ['\\', 't']
  else if c.toNat = 10 then ['\\', 'n']
  else if c.toNat = 12 then ['\\', 'f']
  else if c.toNat = 13 then ['\\', 'r']
  else if c.toNat < 0x20 then
    ['\\', 'u', '0', '0', hexDigit (c.toNat / 16), hexDigit (c.toNat % 16)]
  else [c]

def escapeList : List Char → List Char
  | [] => []
  | c :: cs => escapeChar c ++ escapeList cs

/-- A printed JSON string literal, quotes included. -/
def printStr (s : String) : List Char := '"' :: (escapeList s.data ++ ['"'])

mutual

/-- Compact JSON printing: no whitespace, members in order. -/
def printJson : Json → List Char
  | .null => ("null" : String).data
  | .bool true => ("true" : String).data
  | .bool false => ("false" : String).data
  | .num s => s.data
  | .str s => printStr s
  | .arr vs => '[' :: (printElems vs ++ [']'])
  | .obj ms => '{' :: (printMembers ms ++ ['}'])

def printElems : List Json → List Char
  | [] => []
  | [v] => printJson v
  | v :: v2 :: vs => printJson v ++ (',' :: printElems (v2 :: vs))

def printMembers : List (String × Json) → List Char
  | [] => []
  | [(k, v)] => printStr k ++ (':' :: printJson v)
  | (k, v) :: m2 :: ms => printStr k ++ (':' :: printJson v) ++ (',' :: printMembers (m2 :: ms))

end

/-- JSON whitespace skipping: space, tab, line feed, carriage return. -/
def skipWs : List Char → List Char
  | [] => []
  | c :: cs =>
    if c.toNat = 32 ∨ c.toNat = 9 ∨ c.toNat = 10 ∨ c.toNat = 13 then skipWs cs
    else c :: cs

/-- Value of one hexadecimal digit, either case. -/
def hexVal (c : Char) : Option Nat :=
  if 48 ≤ c.toNat ∧ c.toNat ≤ 57 then some (c.toNat - 48)
  else if 97 ≤ c.toNat ∧ c.toNat ≤ 102 then some (c.toNat - 87)
  else if 65 ≤ c.toNat ∧ c.toNat ≤ 70 then some (c.toNat - 55)
  else none

/-- The character produced by a single-character escape, `none` when the
escape is not one of the short forms. -/
def escShort (e : Char) : Option Char :=
  if e = '"' then some '"'
  else if e = '\\' then some '\\'
  else if e = '/' then some '/'
  else if e = 'b' then some (Char.ofNat 8)
  else if e = 'f' then some (Char.ofNat 12)
  else if e = 'n' then some (Char.ofNat 10)
  else if e = 'r' then some (Char.ofNat 13)
  else if e = 't' then some (Char.ofNat 9)
  else none

/-- The value of four hexadecimal digits. -/
def hex4 (a b c d : Char) : Option Nat :=
  match hexVal a, hexVal b, hexVal c, hexVal d with
  | some va, some vb, some vc, some vd =>
    some (4096 * va + 256 * vb + 16 * vc + vd)
  | _, _, _, _ => none

/-- One step of string-literal scanning: either the closing quote (marker
`none`), one decoded content character, or a syntax error.  All escape forms
are handled; surrogate escapes must come in well-ordered pairs; raw control
characters are rejected. -/
def strItem : List Char → Option (Option Char × List Char)
  | [] => none
  | c :: rest =>
    if c = '"' then some (none, rest)
    else if c = '\\' then
      match rest with
      | [] => none
      | e :: rest2 =>
        match escShort e with
        | some ec => some (some ec, rest2)
        | none =>
          if e = 'u' then
            match rest2 with
            | h1 :: h2 :: h3 :: h4 :: rest3 =>
              match hex4 h1 h2 h3 h4 with
              | some n =>
                if 0xD800 ≤ n ∧ n < 0xDC00 then
                  match rest3 with
                  | b2 :: u2 :: g1 :: g2 :: g3 :: g4 :: rest4 =>
                    if b2 = '\\' ∧ u2 = 'u' then
                      match hex4 g1 g2 g3 g4 with
                      | some m =>
                        if 0xDC00 ≤ m ∧ m < 0xE000 then
                          some (some (Char.ofNat (0x10000 + (n - 0xD800) * 1024 +
                            (m - 0xDC00))), rest4)
                        else none
                      | none => none
                    else none
                  | _ => none
                else if 0xDC00 ≤ n ∧ n < 0xE000 then none
                else some (some (Char.ofNat n), rest3)
              | none => none
            | _ => none
          else none
    else if c.toNat < 0x20 then none
    else some (some c, rest)

/-- Fuel-bounded string-body loop; one unit of fuel per scanned item, and
every item consumes at least one character, so the input length is always
enough fuel. -/
def strLoop : Nat → List Char → Option (List Char × List Char)
  | 0, _ => none
  | fuel + 1, s =>
    match strItem s with
    | some (none, rest) => some ([], rest)
    | some (some c, rest) => (strLoop fuel rest).map (fun p => (c :: p.1, p.2))
    | none => none

/-- Parse the body of a JSON string literal after the opening quote,
returning the decoded characters and the input after the closing quote. -/
def parseStringBody (s : List Char) : Option (List Char × List Char) :=
  strLoop s.length s

/-- Digit test, stated arithmetically over the code point. -/
def isDigitC (c : Char) : Bool := decide (48 ≤ c.toNat ∧ c.toNat ≤ 57)

/-- Longest digit prefix. -/
def takeDigits : List Char → (List Char × List Char)
  | [] => ([], [])
  | c :: cs =>
    if isDigitC c then
      ((takeDigits cs).1.cons c, (takeDigits cs).2)
    else ([], c :: cs)

/-- Integer part of a JSON number (no sign): either a single zero or a
nonzero digit followed by digits; a leading zero may not be followed by a
digit. -/
def parseIntPart : List Char → Option (List Char × List Char)
  | [] => none
  | c :: cs =>
    if c = '0' then
      match cs with
      | c2 :: _ => if isDigitC c2 then none else some (['0'], cs)
      | [] => some (['0'], [])
    else if isDigitC c then
      some ((takeDigits cs).1.cons c, (takeDigits cs).2)
    else none

/-- Optional fraction part: a dot must be followed by at least one digit. -/
def parseFracPart : List Char → Option (List Char × List Char)
  | [] => some ([], [])
  | c :: cs =>
    if c = '.' then
      match takeDigits cs with
      | ([], _) => none
      | (ds, rest) => some ('.' :: ds, rest)
    else some ([], c :: cs)

/-- Optional exponent part: e or E, an optional sign, then at least one
digit. -/
def parseExpPart : List Char → Option (List Char × List Char)
  | [] => some ([], [])
  | c :: cs =>
    if c = 'e' ∨ c = 'E' then
      match cs with
      | sgn :: cs2 =>
        if sgn = '+' ∨ sgn = '-' then
          match takeDigits cs2 with
          | ([], _) => none
          | (ds, rest) => some (c :: sgn :: ds, rest)
        else
          match takeDigits cs with
          | ([], _) => none
          | (ds, rest) => some (c :: ds, rest)
      | [] => none
    else some ([], c :: cs)

/-- The unsigned part of a JSON number: integer part, optional fraction,
optional exponent. -/
def parseNumCore (s : List Char) : Option (List Char × List Char) :=
  match parseIntPart s with
  | some (ip, r1) =>
    match parseFracPart r1 with
    | some (fp, r2) =>
      match parseExpPart r2 with
      | some (ep, r3) => some (ip ++ fp ++ ep, r3)
      | none => none
    | none => none
  | none => none

/-- Parse a JSON number lexeme from the front of the input. -/
def parseNumber (s : List Char) : Option (List Char × List Char) :=
  match s with
  | [] => none
  | c :: cs =>
    if c = '-' then
      match parseNumCore cs with
      | some (lex, r) => some ('-' :: lex, r)
      | none => none
    else parseNumCore (c :: cs)

/-- Expect an exact literal character sequence, returning the input after
it. -/
def expectLit : List Char → List Char → Option (List Char)
  | [], s => some s
  | l :: ls, c :: cs => if c = l then expectLit ls cs else none
  | _ :: _, [] => none

mutual

/-- Parse one JSON value; the input is expected to start with the value
(callers skip whitespace first).  The fuel only bounds recursion depth and
is always instantiated large enough for the input. -/
def parseValue : Nat → List Char → Option (Json × List Char)
  | 0, _ => none
  | fuel + 1, s =>
    match s with
    | [] => none
    | c :: rest =>
      if c = 'n' then
        (expectLit ['u', 'l', 'l'] rest).map (fun r => (.null, r))
      else if c = 't' then
        (expectLit ['r', 'u', 'e'] rest).map (fun r => (.bool true, r))
      else if c = 'f' then
        (expectLit ['a', 'l', 's', 'e'] rest).map (fun r => (.bool false, r))
      else if c = '"' then
        (parseStringBody rest).map (fun p => (.str (String.mk p.1), p.2))
      else if c = '[' then
        match skipWs rest with
        | [] => none
        | c1 :: r1 =>
          if c1 = ']' then some (.arr [], r1)
          else (parseElems fuel (c1 :: r1)).map (fun p => (.arr p.1, p.2))
      else if c = '{' then
        match skipWs rest with
        | [] => none
        | c1 :: r1 =>
          if c1 = '}' then some (.obj [], r1)
          else (parseMembers fuel (c1 :: r1)).map (fun p => (.obj p.1, p.2))
      else if c = '-' ∨ isDigitC c then
        (parseNumber (c :: rest)).map (fun p => (.num (String.mk p.1), p.2))
      else none

/-- Parse the elements of a nonempty array after the opening bracket and
any leading whitespace, through the closing bracket. -/
def parseElems : Nat → List Char → Option (List Json × List Char)
  | 0, _ => none
  | fuel + 1, s =>
    match parseValue fuel s with
    | some (v, r) =>
      match skipWs r with
      | [] => none
      | c2 :: r2 =>
        if c2 = ']' then some ([v], r2)
        else if c2 = ',' then
          (parseElems fuel (skipWs r2)).map (fun p => (v :: p.1, p.2))
        else none
    | none => none

/-- Parse the members of a nonempty object after the opening brace and any
leading whitespace, through the closing brace. -/
def parseMembers : Nat → List Char → Option (List (String × Json) × List Char)
  | 0, _ => none
  | fuel + 1, s =>
    match s with
    | [] => none
    | ck :: rest =>
      if ck = '"' then
        match parseStringBody rest with
        | some (kcs, r1) =>
          match skipWs r1 with
          | [] => none
          | c1 :: r2 =>
            if c1 = ':' then
              match parseValue fuel (skipWs r2) with
              | some (v, r3) =>
                match skipWs r3 with
                | [] => none
                | c3 :: r4 =>
                  if c3 = '}' then some ([(String.mk kcs, v)], r4)
                  else if c3 = ',' then
                    (parseMembers fuel (skipWs r4)).map (fun p =>
                      ((String.mk kcs, v) :: p.1, p.2))
                  else none
              | none => none
            else none
        | none => none
      else none

end

/-- Parse a whole JSON document: leading whitespace, one value, trailing
whitespace, end of input. -/
def parseTopLevel (cs : List Char) : Option Json :=
  match parseValue ((skipWs cs).length + 1) (skipWs cs) with
  | some (v, r) =>
    match skipWs r with
    | [] => some v
    | _ => none
  | none => none

/-! ### The deck data model and its serde instances

Embedding of the repository source `src/lib.rs`: the `Card` and `DeckList`
records, their accessors and mutators, the serde field renames (`Name`,
`Cards`, `CardDefId`), the derived serializer (fields in declaration order)
and the derived deserializer (required fields, duplicate-field rejection,
unknown fields ignored, map or sequence form accepted). -/

/-- An individual card: `struct Card { name: String }` with the serde rename
`CardDefId`. -/
structure Card where
  name : String
  deriving Repr, DecidableEq

/-- A deck list: `struct DeckList { name: String, cards: Vec<Card> }` with
serde renames `Name` and `Cards`. -/
structure DeckList where
  name : String
  cards : List Card
  deriving Repr, DecidableEq

/-- `DeckList::new()`: empty name, empty card list (the `Default` values). -/
def DeckList.new : DeckList := { name := "", cards := [] }

/-- `DeckList::set_name`. -/
def DeckList.set_name (d : DeckList) (n : String) : DeckList :=
  { d with name := n }

/-- `DeckList::set_cards`: bulk replacement, each identifier converted to a
`Card` in order. -/
def DeckList.set_cards (d : DeckList) (cards : List String) : DeckList :=
  { d with cards := cards.map (fun n => { name := n }) }

/-- `DeckList::cards()`: the card identifiers as a list of strings, in order.
(The Rust method is called `cards`; that name is taken by the field here.) -/
def DeckList.cardsVec (d : DeckList) : List String :=
  d.cards.map (fun c => c.name)

/-- The serialized form of a `Card` produced by the derived `Serialize`
instance: one member named by the rename attribute. -/
def Card.toJson (c : Card) : Json := .obj [("CardDefId", .str c.name)]

/-- The serialized form of a `DeckList`: the two renamed fields in
declaration order. -/
def DeckList.toJson (d : DeckList) : Json :=
  .obj [("Name", .str d.name), ("Cards", .arr (d.cards.map Card.toJson))]

/-- Model of `serde_json::to_string::<DeckList>`.  Writing to an in-memory
string cannot fail and the derived serializer for this string-only record
never reports an error, so the result is always `ok`; the `Except` shape
records that the Rust API returns a `Result`. -/
def serdeJsonToString (d : DeckList) : Except Unit String :=
  .ok (String.mk (printJson d.toJson))

/-- Deserialize the member list of a JSON object into a `Card` the way the
derived visitor does: the renamed field is required and must be a string, a
duplicate is an error, unknown members are ignored. -/
def deserCardFields : List (String × Json) → Option String → Option Card
  | [], acc =>
    match acc with
    | some s => some { name := s }
    | none => none
  | (k, v) :: rest, acc =>
    if k = "CardDefId" then
      match acc with
      | some _ => none
      | none =>
        match v with
        | .str s => deserCardFields rest (some s)
        | _ => none
    else deserCardFields rest acc

/-- Deserialize a JSON value as a `Card`: an object, or the serde sequence
form (an array with exactly the one field value). -/
def deserCard : Json → Option Card
  | .obj ms => deserCardFields ms none
  | .arr [.str s] => some { name := s }
  | _ => none

/-- Deserialize every array element as a `Card`. -/
def deserCards : List Json → Option (List Card)
  | [] => some []
  | v :: vs =>
    match deserCard v, deserCards vs with
    | some c, some cs => some (c :: cs)
    | _, _ => none

/-- Deserialize the member list of a JSON object into a `DeckList`: `Name`
must be a string, `Cards` an array of cards, both required, duplicates are
errors, unknown members are ignored. -/
def deserDeckFields :
    List (String × Json) → Option String → Option (List Card) → Option DeckList
  | [], oname, ocards =>
    match oname, ocards with
    | some n, some cs => some { name := n, cards := cs }
    | _, _ => none
  | (k, v) :: rest, oname, ocards =>
    if k = "Name" then
      match oname with
      | some _ => none
      | none =>
        match v with
        | .str s => deserDeckFields rest (some s) ocards
        | _ => none
    else if k = "Cards" then
      match ocards with
      | some _ => none
      | none =>
        match v with
        | .arr vs =>
          match deserCards vs with
          | some cs => deserDeckFields rest oname (some cs)
          | none => none
        | _ => none
    else deserDeckFields rest oname ocards

/-- Deserialize a JSON value as a `DeckList`: an object, or the serde
sequence form (an array with exactly the two field values in order). -/
def deserDeck : Json → Option DeckList
  | .obj ms => deserDeckFields ms none none
  | .arr [.str s, .arr vs] =>
    match deserCards vs with
    | some cs => some { name := s, cards := cs }
    | none => none
  | _ => none

/-- Model of `serde_json::from_slice::<DeckList>`: the bytes must be valid
UTF-8, parse as a single JSON document, and deserialize as a `DeckList`. -/
def serdeJsonFromSlice (bs : List Nat) : Option DeckList :=
  match utf8Decode bs with
  | none => none
  | some cs =>
    match parseTopLevel cs with
    | none => none
    | some v => deserDeck v

/-! ### The library error type and the two operations -/

/-- `DeckListError` from the source, with the decode-stage variant wrapping
the Base64 error exactly as `#[from] DecodeError` does. -/
inductive DeckListError where
  | EncodingError
  | DecodingError (err : DecodeError)
  | InvalidDeckInput
  deriving Repr, DecidableEq

/-- `DeckList::from_code`: Base64-decode (errors become `DecodingError`),
then parse the bytes as a deck (errors become `InvalidDeckInput`). -/
def DeckList.from_code (code : String) : Except DeckListError DeckList :=
  match b64decode code.data with
  | .error e => .error (.DecodingError e)
  | .ok bytes =>
    match serdeJsonFromSlice bytes with
    | none => .error .InvalidDeckInput
    | some d => .ok d

/-- `DeckList::into_code`: serialize to a JSON string (a failure would be
`EncodingError`), then Base64-encode the UTF-8 bytes. -/
def DeckList.into_code (d : DeckList) : Except DeckListError String :=
  match serdeJsonToString d with
  | .error _ => .error .EncodingError
  | .ok data => .ok (String.mk (b64encode (utf8Encode data.data)))

/-! ### Round trip of printed JSON: string literals -/

theorem stringMk_data (s : String) : String.mk s.data = s := rfl

theorem toNat_ofNat_valid (n : Nat) (h : n.isValidChar) :
    (Char.ofNat n).toNat = n := by
  simp [Char.ofNat, h, Char.ofNatAux, Char.toNat, UInt32.toNat, BitVec.toNat_ofNatLt]

theorem ofNat_eq_of_toNat (c : Char) (n : Nat) (h : c.toNat = n) :
    Char.ofNat n = c := by
  subst h
  exact Char.ofNat_toNat c

theorem hexVal_hexDigit : ∀ n < 16, hexVal (hexDigit n) = some n := by
  decide

theorem strItem_quote (rest : List Char) : strItem ('"' :: rest) = some (none, rest) := by
  simp [strItem]

theorem strItem_escapeChar (c : Char) (tail : List Char) :
    strItem (escapeChar c ++ tail) = some (some c, tail) := by
  by_cases h1 : c = '"'
  · subst h1
    simp [escapeChar, strItem, escShort]
  by_cases h2 : c = '\\'
  · subst h2
    simp [escapeChar, strItem, escShort]
  by_cases h3 : c.toNat = 8
  · have hc : Char.ofNat 8 = c := ofNat_eq_of_toNat c 8 h3
    simp [escapeChar, h1, h2, h3, strItem, escShort, hc]
    exact hc
  by_cases h4 : c.toNat = 9
  · have hc : Char.ofNat 9 = c := ofNat_eq_of_toNat c 9 h4
    simp [escapeChar, h1, h2, h3, h4, strItem, escShort, hc]
    exact hc
  by_cases h5 : c.toNat = 10
  · have hc : Char.ofNat 10 = c := ofNat_eq_of_toNat c 10 h5
    simp [escapeChar, h1, h2, h3, h4, h5, strItem, escShort, hc]
    exact hc
  by_cases h6 : c.toNat = 12
  · have hc : Char.ofNat 12 = c := ofNat_eq_of_toNat c 12 h6
    simp [escapeChar, h1, h2, h3, h4, h5, h6, strItem, escShort, hc]
    exact hc
  by_cases h7 : c.toNat = 13
  · have hc : Char.ofNat 13 = c := ofNat_eq_of_toNat c 13 h7
    simp [escapeChar, h1, h2, h3, h4, h5, h6, h7, strItem, escShort, hc]
    exact hc
  by_cases h8 : c.toNat < 32
  · have hd1 : hexVal (hexDigit (c.toNat / 16)) = some (c.toNat / 16) :=
      hexVal_hexDigit _ (by omega)
    have hd2 : hexVal (hexDigit (c.toNat % 16)) = some (c.toNat % 16) :=
      hexVal_hexDigit _ (by omega)
    have hz : hexVal '0' = some 0 := by decide
    have harith : 4096 * 0 + 256 * 0 + 16 * (c.toNat / 16) + c.toNat % 16
        = c.toNat := by omega
    have hs1 : ¬(55296 ≤ c.toNat ∧ c.toNat < 56320) := by omega
    have hs2 : ¬(56320 ≤ c.toNat ∧ c.toNat < 57344) := by omega
    have hc : Char.ofNat c.toNat = c := Char.ofNat_toNat c
    simp [escapeChar, h1, h2, h3, h4, h5, h6, h7, h8, strItem, escShort,
          hex4, hd1, hd2, hz, harith, hs1, hs2, hc]
    have harith2 : 16 * (c.toNat / 16) + c.toNat % 16 = c.toNat := by omega
    rw [harith2, if_neg (by omega), if_neg (by omega), hc]
  · simp [escapeChar, h1, h2, h3, h4, h5, h6, h7, h8, strItem]

theorem escapeChar_ne_nil (c : Char) : escapeChar c ≠ [] := by
  unfold escapeChar
  by_cases h1 : c = '"' <;> by_cases h2 : c = '\\' <;>
    by_cases h3 : c.toNat = 8 <;> by_cases h4 : c.toNat = 9 <;>
    by_cases h5 : c.toNat = 10 <;> by_cases h6 : c.toNat = 12 <;>
    by_cases h7 : c.toNat = 13 <;> by_cases h8 : c.toNat < 32 <;>
    simp [h1, h2, h3, h4, h5, h6, h7, h8]

theorem strLoop_escape (cs : List Char) :
    ∀ fuel rest, (escapeList cs).length + 1 ≤ fuel →
    strLoop fuel (escapeList cs ++ ('"' :: rest)) = some (cs, rest) := by
  induction cs with
  | nil =>
      intro fuel rest hf
      match fuel with
      | f + 1 =>
          show strLoop (f + 1) ('"' :: rest) = some ([], rest)
          rw [strLoop, strItem_quote]
  | cons c cs ih =>
      intro fuel rest hf
      have hlist : escapeList (c :: cs) ++ ('"' :: rest)
          = escapeChar c ++ (escapeList cs ++ ('"' :: rest)) := by
        simp [escapeList]
      have hne : (escapeChar c).length ≥ 1 := by
        cases he : escapeChar c with
        | nil => exact absurd he (escapeChar_ne_nil c)
        | cons a t => simp
      have hlen : (escapeList (c :: cs)).length
          = (escapeChar c).length + (escapeList cs).length := by
        simp [escapeList]
      match fuel with
      | 0 => omega
      | f + 1 =>
          rw [hlist]
          rw [strLoop, strItem_escapeChar]
          have hfl : (escapeList cs).length + 1 ≤ f := by omega
          simp [ih f rest hfl]

theorem parseStringBody_escape (cs rest : List Char) :
    parseStringBody (escapeList cs ++ ('"' :: rest)) = some (cs, rest) := by
  have hlen : (escapeList cs).length + 1 ≤ (escapeList cs ++ ('"' :: rest)).length := by
    simp
  exact strLoop_escape cs _ rest (by simpa using hlen)

/-! ### Round trip of printed JSON: number lexemes

A printed number lexeme re-parses to itself as long as the following input
cannot extend the lexeme; the printer only ever places a comma, a closing
bracket or brace, or nothing after a value, none of which can. -/

def headNotDigit : List Char → Prop
  | [] => True
  | c :: _ => isDigitC c = false

def numBoundary : List Char → Prop
  | [] => True
  | c :: _ => isDigitC c = false ∧ c ≠ '.' ∧ c ≠ 'e' ∧ c ≠ 'E'

theorem numBoundary_headNotDigit (X : List Char) (h : numBoundary X) :
    headNotDigit X := by
  cases X with
  | nil => trivial
  | cons c t => exact h.1

theorem takeDigits_ext (cs : List Char) :
    ∀ ds r X, takeDigits cs = (ds, r) → (r = [] → headNotDigit X) →
    takeDigits (cs ++ X) = (ds, r ++ X) := by
  induction cs with
  | nil =>
      intro ds r X h hb
      simp [takeDigits] at h
      rcases h with ⟨h1, h2⟩
      subst h1
      subst h2
      have hX := hb rfl
      cases X with
      | nil => simp [takeDigits]
      | cons x t =>
          simp [headNotDigit] at hX
          simp [takeDigits, hX]
  | cons c cs ih =>
      intro ds r X h hb
      by_cases hd : isDigitC c = true
      · simp [takeDigits, hd] at h
        rcases h with ⟨h1, h2⟩
        have hrec := ih (takeDigits cs).1 (takeDigits cs).2 X rfl
          (by intro hr; exact hb (by rw [← h2, hr]))
        subst h1
        subst h2
        simp [takeDigits, hd, hrec]
      · simp [takeDigits, hd] at h
        rcases h with ⟨h1, h2⟩
        subst h1
        subst h2
        simp [takeDigits, hd]

theorem parseIntPart_ext (cs : List Char) :
    ∀ ip r X, parseIntPart cs = some (ip, r) → (r = [] → headNotDigit X) →
    parseIntPart (cs ++ X) = some (ip, r ++ X) := by
  intro ip r X h hb
  match cs with
  | [] => simp [parseIntPart] at h
  | c :: cs2 =>
      by_cases h0 : c = '0'
      · subst h0
        match cs2 with
        | [] =>
            simp [parseIntPart] at h
            rcases h with ⟨h1, h2⟩
            subst h1
            subst h2
            have hX := hb rfl
            cases X with
            | nil => simp [parseIntPart]
            | cons x t =>
                simp [headNotDigit] at hX
                simp [parseIntPart, hX]
        | c2 :: t =>
            by_cases hd2 : isDigitC c2 = true
            · simp [parseIntPart, hd2] at h
            · simp [parseIntPart, hd2] at h
              rcases h with ⟨h1, h2⟩
              subst h1
              subst h2
              simp [parseIntPart, hd2]
      · by_cases hd : isDigitC c = true
        · simp [parseIntPart, h0, hd] at h
          rcases h with ⟨h1, h2⟩
          have hrec := takeDigits_ext cs2 (takeDigits cs2).1 (takeDigits cs2).2 X rfl
            (by intro hr; exact hb (by rw [← h2, hr]))
          subst h1
          subst h2
          simp [parseIntPart, h0, hd, hrec]
        · simp [parseIntPart, h0, hd] at h

theorem parseFracPart_ext (cs : List Char) :
    ∀ fp r X, parseFracPart cs = some (fp, r) → (r = [] → numBoundary X) →
    parseFracPart (cs ++ X) = some (fp, r ++ X) := by
  intro fp r X h hb
  match cs with
  | [] =>
      simp [parseFracPart] at h
      rcases h with ⟨h1, h2⟩
      subst h1
      subst h2
      have hX := hb rfl
      cases X with
      | nil => simp [parseFracPart]
      | cons x t =>
          simp [numBoundary] at hX
          simp [parseFracPart, hX.2.1]
  | c :: cs2 =>
      by_cases hdot : c = '.'
      · subst hdot
        rcases htd : takeDigits cs2 with ⟨ds, rest⟩
        match ds, htd with
        | [], htd =>
            simp [parseFracPart, htd] at h
        | d :: ds2, htd =>
            simp [parseFracPart, htd] at h
            rcases h with ⟨h1, h2⟩
            have hrec := takeDigits_ext cs2 (d :: ds2) rest X htd
              (by intro hr; exact numBoundary_headNotDigit X (hb (by rw [← h2, hr])))
            subst h1
            subst h2
            simp [parseFracPart, hrec]
      · simp [parseFracPart, hdot] at h
        rcases h with ⟨h1, h2⟩
        subst h1
        subst h2
        simp [parseFracPart, hdot]

theorem parseExpPart_ext (cs : List Char) :
    ∀ ep r X, parseExpPart cs = some (ep, r) → (r = [] → numBoundary X) →
    parseExpPart (cs ++ X) = some (ep, r ++ X) := by
  intro ep r X h hb
  match cs with
  | [] =>
      simp [parseExpPart] at h
      rcases h with ⟨h1, h2⟩
      subst h1
      subst h2
      have hX := hb rfl
      cases X with
      | nil => simp [parseExpPart]
      | cons x t =>
          simp [numBoundary] at hX
          simp [parseExpPart, hX.2.2.1, hX.2.2.2]
  | c :: cs2 =>
      by_cases he : c = 'e' ∨ c = 'E'
      · match cs2 with
        | [] => simp [parseExpPart, he] at h
        | sgn :: cs3 =>
            by_cases hs : sgn = '+' ∨ sgn = '-'
            · rcases htd : takeDigits cs3 with ⟨ds, rest⟩
              match ds, htd with
              | [], htd => simp [parseExpPart, he, hs, htd] at h
              | d :: ds2, htd =>
                  simp [parseExpPart, he, hs, htd] at h
                  rcases h with ⟨h1, h2⟩
                  have hrec := takeDigits_ext cs3 (d :: ds2) rest X htd
                    (by intro hr; exact numBoundary_headNotDigit X (hb (by rw [← h2, hr])))
                  subst h1
                  subst h2
                  simp [parseExpPart, he, hs, hrec]
            · rcases htd : takeDigits (sgn :: cs3) with ⟨ds, rest⟩
              match ds, htd with
              | [], htd => simp [parseExpPart, he, hs, htd] at h
              | d :: ds2, htd =>
                  simp [parseExpPart, he, hs, htd] at h
                  rcases h with ⟨h1, h2⟩
                  have hrec := takeDigits_ext (sgn :: cs3) (d :: ds2) rest X htd
                    (by intro hr; exact numBoundary_headNotDigit X (hb (by rw [← h2, hr])))
                  subst h1
                  subst h2
                  have hgoal : (sgn :: cs3) ++ X = sgn :: (cs3 ++ X) := by simp
                  simp [parseExpPart, he, hs]
                  rw [show sgn :: (cs3 ++ X) = (sgn :: cs3) ++ X from by simp, hrec]
      · simp [parseExpPart, he] at h
        rcases h with ⟨h1, h2⟩
        subst h1
        subst h2
        simp [parseExpPart, he]

theorem parseNumCore_ext (cs : List Char) (lex : List Char) (X : List Char)
    (h : parseNumCore cs = some (lex, [])) (hX : numBoundary X) :
    parseNumCore (cs ++ X) = some (lex, X) := by
  unfold parseNumCore at h ⊢
  rcases hip : parseIntPart cs with _ | ⟨ip, r1⟩
  · simp [hip] at h
  · simp [hip] at h
    rcases hfp : parseFracPart r1 with _ | ⟨fp, r2⟩
    · simp [hfp] at h
    · simp [hfp] at h
      rcases hep : parseExpPart r2 with _ | ⟨ep, r3⟩
      · simp [hep] at h
      · simp [hep] at h
        rcases h with ⟨h1, h2⟩
        subst h2
        have hip2 := parseIntPart_ext cs ip r1 X hip
          (fun _ => numBoundary_headNotDigit X hX)
        have hfp2 := parseFracPart_ext r1 fp r2 X hfp (fun _ => hX)
        have hep2 := parseExpPart_ext r2 ep [] X hep (fun _ => hX)
        simp [hip2, hfp2, hep2, h1]

theorem parseNumber_ext (L : List Char) (lex : List Char) (X : List Char)
    (h : parseNumber L = some (lex, [])) (hX : numBoundary X) :
    parseNumber (L ++ X) = some (lex, X) := by
  match L with
  | [] => simp [parseNumber] at h
  | c :: cs =>
      by_cases hm : c = '-'
      · subst hm
        rcases hc : parseNumCore cs with _ | ⟨lex2, r⟩
        · simp [parseNumber, hc] at h
        · simp [parseNumber, hc] at h
          rcases h with ⟨h1, h2⟩
          subst h2
          have := parseNumCore_ext cs lex2 X hc hX
          simp [parseNumber, this, h1]
      · simp [parseNumber, hm] at h ⊢
        exact parseNumCore_ext (c :: cs) lex X h hX

theorem parseNumber_head (L : List Char) (lex r : List Char)
    (h : parseNumber L = some (lex, r)) :
    ∃ c t, L = c :: t ∧ (c = '-' ∨ isDigitC c = true) := by
  match L with
  | [] => simp [parseNumber] at h
  | c :: t =>
      refine ⟨c, t, rfl, ?_⟩
      by_cases hm : c = '-'
      · exact Or.inl hm
      · right
        simp [parseNumber, hm] at h
        unfold parseNumCore at h
        rcases hip : parseIntPart (c :: t) with _ | p
        · simp [hip] at h
        · by_cases h0 : c = '0'
          · subst h0
            simp [isDigitC]
          · by_cases hd : isDigitC c = true
            · exact hd
            · simp [parseIntPart, h0, hd] at hip

/-! ### Well-formed JSON values and shapes of printed output -/

mutual

/-- Well-formedness of a JSON value for printing: numeric lexemes must be
exactly what the number grammar produces; everything else is unrestricted. -/
def WFb : Json → Bool
  | .null => true
  | .bool _ => true
  | .str _ => true
  | .num s => decide (parseNumber s.data = some (s.data, []))
  | .arr vs => WFbList vs
  | .obj ms => WFbMembers ms

def WFbList : List Json → Bool
  | [] => true
  | v :: vs => WFb v && WFbList vs

def WFbMembers : List (String × Json) → Bool
  | [] => true
  | m :: ms => WFb m.2 && WFbMembers ms

end

theorem expectLit_append (lit X : List Char) : expectLit lit (lit ++ X) = some X := by
  induction lit with
  | nil => simp [expectLit]
  | cons l ls ih => simp [expectLit, ih]

theorem skipWs_cons_notWs (c : Char) (t : List Char)
    (h : ¬(c.toNat = 32 ∨ c.toNat = 9 ∨ c.toNat = 10 ∨ c.toNat = 13)) :
    skipWs (c :: t) = c :: t := by
  simp [skipWs, h]

theorem isDigitC_toNat (c : Char) (h : isDigitC c = true) :
    48 ≤ c.toNat ∧ c.toNat ≤ 57 := by
  simpa [isDigitC] using h

/-- Every printed well-formed value starts with a character that is not
whitespace, not a closing bracket and not a closing brace. -/
theorem printJson_cons (v : Json) (h : WFb v = true) :
    ∃ c t, printJson v = c :: t ∧
      ¬(c.toNat = 32 ∨ c.toNat = 9 ∨ c.toNat = 10 ∨ c.toNat = 13) ∧
      c ≠ ']' ∧ c ≠ '}' := by
  match v with
  | .null => exact ⟨'n', _, rfl, by decide, by decide, by decide⟩
  | .bool true => exact ⟨'t', _, rfl, by decide, by decide, by decide⟩
  | .bool false => exact ⟨'f', _, rfl, by decide, by decide, by decide⟩
  | .str s => exact ⟨'"', _, rfl, by decide, by decide, by decide⟩
  | .arr vs => exact ⟨'[', _, rfl, by decide, by decide, by decide⟩
  | .obj ms => exact ⟨'{', _, rfl, by decide, by decide, by decide⟩
  | .num s =>
      have hnum : parseNumber s.data = some (s.data, []) := by
        simpa [WFb] using h
      rcases parseNumber_head s.data s.data [] hnum with ⟨c, t, he, hc⟩
      refine ⟨c, t, by simp [printJson, he], ?_, ?_, ?_⟩
      · rcases hc with hc | hc
        · subst hc; decide
        · have := isDigitC_toNat c hc
          omega
      · rcases hc with hc | hc
        · subst hc; decide
        · intro he2
          subst he2
          simp [isDigitC] at hc
      · rcases hc with hc | hc
        · subst hc; decide
        · intro he2
          subst he2
          simp [isDigitC] at hc

theorem printJson_length_pos (v : Json) (h : WFb v = true) :
    1 ≤ (printJson v).length := by
  rcases printJson_cons v h with ⟨c, t, he, _⟩
  simp [he]

theorem numStart_ne (c : Char) (hc : c = '-' ∨ isDigitC c = true) :
    c ≠ 'n' ∧ c ≠ 't' ∧ c ≠ 'f' ∧ c ≠ '"' ∧ c ≠ '[' ∧ c ≠ '{' := by
  rcases hc with hc | hc
  · subst hc
    refine ⟨by decide, by decide, by decide, by decide, by decide, by decide⟩
  · refine ⟨?_, ?_, ?_, ?_, ?_, ?_⟩ <;>
      (intro he; subst he; simp [isDigitC] at hc)

theorem printElems_cons (v : Json) (vs : List Json) :
    ∃ X, printElems (v :: vs) = printJson v ++ X := by
  cases vs with
  | nil => exact ⟨[], by simp [printElems]⟩
  | cons v2 vs2 => exact ⟨',' :: printElems (v2 :: vs2), by simp [printElems]⟩

theorem numBoundary_mk (c : Char) (X : List Char) (h1 : isDigitC c = false)
    (h2 : c ≠ '.') (h3 : c ≠ 'e') (h4 : c ≠ 'E') : numBoundary (c :: X) := by
  exact ⟨h1, h2, h3, h4⟩

theorem numBoundary_bracket (X : List Char) : numBoundary (']' :: X) :=
  numBoundary_mk _ _ (by decide) (by decide) (by decide) (by decide)

theorem numBoundary_brace (X : List Char) : numBoundary ('}' :: X) :=
  numBoundary_mk _ _ (by decide) (by decide) (by decide) (by decide)

theorem numBoundary_comma (X : List Char) : numBoundary (',' :: X) :=
  numBoundary_mk _ _ (by decide) (by decide) (by decide) (by decide)

/-- Parsing inverts printing, for values, element lists and member lists at
once; the induction is on an upper bound of the term size. -/
theorem parsePrintAux : ∀ n : Nat,
    (∀ v : Json, sizeOf v ≤ n → WFb v = true →
      ∀ rest fuel, numBoundary rest → (printJson v).length < fuel →
      parseValue fuel (printJson v ++ rest) = some (v, rest)) ∧
    (∀ vs : List Json, sizeOf vs ≤ n → vs ≠ [] → WFbList vs = true →
      ∀ rest fuel, (printElems vs).length + 2 ≤ fuel →
      parseElems fuel (printElems vs ++ (']' :: rest)) = some (vs, rest)) ∧
    (∀ ms : List (String × Json), sizeOf ms ≤ n → ms ≠ [] → WFbMembers ms = true →
      ∀ rest fuel, (printMembers ms).length + 2 ≤ fuel →
      parseMembers fuel (printMembers ms ++ ('}' :: rest)) = some (ms, rest)) := by
  intro n
  induction n using Nat.strong_induction_on with
  | _ n ih =>
  refine ⟨?_, ?_, ?_⟩
  · intro v hsz hwf rest fuel hrest hfuel
    match v with
    | .null =>
        cases fuel with
        | zero => simp [printJson] at hfuel
        | succ f =>
            have hshape : printJson Json.null ++ rest = 'n' :: 'u' :: 'l' :: 'l' :: rest := rfl
            rw [hshape, parseValue]
            simp [expectLit]
    | .bool true =>
        cases fuel with
        | zero => simp [printJson] at hfuel
        | succ f =>
            have hshape : printJson (Json.bool true) ++ rest
                = 't' :: 'r' :: 'u' :: 'e' :: rest := rfl
            rw [hshape, parseValue]
            simp [expectLit]
    | .bool false =>
        cases fuel with
        | zero => simp [printJson] at hfuel
        | succ f =>
            have hshape : printJson (Json.bool false) ++ rest
                = 'f' :: 'a' :: 'l' :: 's' :: 'e' :: rest := rfl
            rw [hshape, parseValue]
            simp [expectLit]
    | .str s =>
        cases fuel with
        | zero => simp [printJson] at hfuel
        | succ f =>
            have hshape : printJson (Json.str s) ++ rest
                = '"' :: (escapeList s.data ++ ('"' :: rest)) := by
              simp [printJson, printStr]
            rw [hshape, parseValue]
            simp [parseStringBody_escape, stringMk_data]
    | .num s =>
        have hnum : parseNumber s.data = some (s.data, []) := by
          simpa [WFb] using hwf
        rcases parseNumber_head s.data s.data [] hnum with ⟨c, t, he, hc⟩
        have hne := numStart_ne c hc
        cases fuel with
        | zero => simp [printJson] at hfuel
        | succ f =>
            have hshape : printJson (Json.num s) ++ rest = c :: (t ++ rest) := by
              simp [printJson, he]
            rw [hshape, parseValue]
            simp only [if_neg hne.1, if_neg hne.2.1, if_neg hne.2.2.1,
              if_neg hne.2.2.2.1, if_neg hne.2.2.2.2.1, if_neg hne.2.2.2.2.2]
            rw [if_pos hc]
            have harg : c :: (t ++ rest) = s.data ++ rest := by simp [he]
            rw [harg, parseNumber_ext s.data s.data rest hnum hrest]
            simp [stringMk_data]
    | .arr [] =>
        cases fuel with
        | zero => simp [printJson] at hfuel
        | succ f =>
            have hshape : printJson (Json.arr []) ++ rest = '[' :: (']' :: rest) := by
              simp [printJson, printElems]
            rw [hshape, parseValue]
            simp [skipWs]
    | .arr (v1 :: vs) =>
        have hwfl : WFbList (v1 :: vs) = true := by simpa [WFb] using hwf
        have hwf1 : WFb v1 = true := by
          have := hwfl
          simp [WFbList, Bool.and_eq_true] at this
          exact this.1
        rcases printJson_cons v1 hwf1 with ⟨c1, t1, hpv, hnws, hnbr, hnbc⟩
        rcases printElems_cons v1 vs with ⟨X, hpe⟩
        cases fuel with
        | zero => simp [printJson] at hfuel
        | succ f =>
            have hshape : printJson (Json.arr (v1 :: vs)) ++ rest
                = '[' :: (printElems (v1 :: vs) ++ (']' :: rest)) := by
              simp [printJson]
            have hee : printElems (v1 :: vs) ++ (']' :: rest)
                = c1 :: (t1 ++ (X ++ (']' :: rest))) := by
              simp [hpe, hpv]
            have hsz2 : sizeOf (v1 :: vs) + 1 ≤ n := by
              have hspec : sizeOf (Json.arr (v1 :: vs)) = 1 + sizeOf (v1 :: vs) := by
                simp
              omega
            have hlen : (printJson (Json.arr (v1 :: vs))).length
                = (printElems (v1 :: vs)).length + 2 := by
              simp [printJson]
            have hq := (ih (n - 1) (by omega)).2.1 (v1 :: vs) (by omega)
              (by simp) hwfl rest f (by omega)
            rw [hshape, parseValue]
            rw [if_neg (by decide : ¬('[' : Char) = 'n'),
                if_neg (by decide : ¬('[' : Char) = 't'),
                if_neg (by decide : ¬('[' : Char) = 'f'),
                if_neg (by decide : ¬('[' : Char) = '"'),
                if_pos (show ('[' : Char) = '[' from rfl)]
            rw [hee, skipWs_cons_notWs c1 _ hnws]
            show (if c1 = ']' then some (Json.arr [], t1 ++ (X ++ (']' :: rest)))
                else (parseElems f (c1 :: (t1 ++ (X ++ (']' :: rest))))).map
                  (fun p => (Json.arr p.1, p.2))) = some (Json.arr (v1 :: vs), rest)
            rw [if_neg hnbr,
                show c1 :: (t1 ++ (X ++ (']' :: rest)))
                  = printElems (v1 :: vs) ++ (']' :: rest) from hee.symm, hq]
            rfl
    | .obj [] =>
        cases fuel with
        | zero => simp [printJson] at hfuel
        | succ f =>
            have hshape : printJson (Json.obj []) ++ rest = '{' :: ('}' :: rest) := by
              simp [printJson, printMembers]
            rw [hshape, parseValue]
            simp [skipWs]
    | .obj (m1 :: ms) =>
        have hwfl : WFbMembers (m1 :: ms) = true := by simpa [WFb] using hwf
        cases fuel with
        | zero => simp [printJson] at hfuel
        | succ f =>
            have hshape : printJson (Json.obj (m1 :: ms)) ++ rest
                = '{' :: (printMembers (m1 :: ms) ++ ('}' :: rest)) := by
              simp [printJson]
            have hkey : ∃ Y, printMembers (m1 :: ms) = printStr m1.1 ++ Y := by
              rcases m1 with ⟨k, v⟩
              cases ms with
              | nil => exact ⟨':' :: printJson v, by simp [printMembers]⟩
              | cons m2 ms2 =>
                  exact ⟨(':' :: printJson v) ++ (',' :: printMembers (m2 :: ms2)),
                    by simp [printMembers]⟩
            rcases hkey with ⟨Y, hY⟩
            have hee : printMembers (m1 :: ms) ++ ('}' :: rest)
                = '"' :: ((escapeList m1.1.data ++ ['"']) ++ (Y ++ ('}' :: rest))) := by
              simp [hY, printStr]
            have hsz2 : sizeOf (m1 :: ms) + 1 ≤ n := by
              have hspec : sizeOf (Json.obj (m1 :: ms)) = 1 + sizeOf (m1 :: ms) := by
                simp
              omega
            have hlen : (printJson (Json.obj (m1 :: ms))).length
                = (printMembers (m1 :: ms)).length + 2 := by
              simp [printJson]
            have hr := (ih (n - 1) (by omega)).2.2 (m1 :: ms) (by omega)
              (by simp) hwfl rest f (by omega)
            rw [hshape, parseValue]
            rw [if_neg (by decide : ¬('{' : Char) = 'n'),
                if_neg (by decide : ¬('{' : Char) = 't'),
                if_neg (by decide : ¬('{' : Char) = 'f'),
                if_neg (by decide : ¬('{' : Char) = '"'),
                if_neg (by decide : ¬('{' : Char) = '['),
                if_pos (show ('{' : Char) = '{' from rfl)]
            rw [hee, skipWs_cons_notWs '"' _ (by decide)]
            show (if ('"' : Char) = '}' then
                some (Json.obj [], (escapeList m1.1.data ++ ['"']) ++ (Y ++ ('}' :: rest)))
              else (parseMembers f ('"' :: ((escapeList m1.1.data ++ ['"']) ++
                  (Y ++ ('}' :: rest))))).map (fun p => (Json.obj p.1, p.2)))
              = some (Json.obj (m1 :: ms), rest)
            rw [if_neg (by decide : ¬('"' : Char) = '}'),
                show '"' :: ((escapeList m1.1.data ++ ['"']) ++ (Y ++ ('}' :: rest)))
                  = printMembers (m1 :: ms) ++ ('}' :: rest) from hee.symm, hr]
            rfl
  · intro vs hsz hne hwf rest fuel hfuel
    match vs with
    | [] => exact absurd rfl hne
    | [v1] =>
        have hwf1 : WFb v1 = true := by
          simpa [WFbList] using hwf
        cases fuel with
        | zero => omega
        | succ f =>
            have hp := (ih (n - 1) ?_).1 v1 ?_ hwf1 (']' :: rest) f
              (numBoundary_bracket rest) ?_
            rotate_left
            · have h1 := List.cons.sizeOf_spec v1 ([] : List Json)
              omega
            · have h1 := List.cons.sizeOf_spec v1 ([] : List Json)
              have h2 : sizeOf ([] : List Json) = 1 := rfl
              omega
            · have hl : (printElems [v1]).length = (printJson v1).length := by
                simp [printElems]
              omega
            rw [show printElems [v1] ++ (']' :: rest) = printJson v1 ++ (']' :: rest)
              from by simp [printElems]]
            rw [parseElems, hp]
            simp [skipWs]
    | v1 :: v2 :: vs2 =>
        have hwf1 : WFb v1 = true ∧ WFbList (v2 :: vs2) = true := by
          simpa [WFbList, Bool.and_eq_true] using hwf
        rcases printJson_cons v2 (by
          have := hwf1.2
          simp [WFbList, Bool.and_eq_true] at this
          exact this.1) with ⟨c2, t2, hpv2, hnws2, _, _⟩
        rcases printElems_cons v2 vs2 with ⟨X2, hpe2⟩
        cases fuel with
        | zero => omega
        | succ f =>
            have hlen1 : printElems (v1 :: v2 :: vs2)
                = printJson v1 ++ (',' :: printElems (v2 :: vs2)) := by
              simp [printElems]
            have hlen2 : (printElems (v1 :: v2 :: vs2)).length
                = (printJson v1).length + 1 + (printElems (v2 :: vs2)).length := by
              rw [hlen1]
              simp only [List.length_append, List.length_cons]
              omega
            have hp := (ih (n - 1) ?_).1 v1 ?_ hwf1.1
              (',' :: (printElems (v2 :: vs2) ++ (']' :: rest))) f
              (numBoundary_comma _) ?_
            rotate_left
            · have h1 := List.cons.sizeOf_spec v1 (v2 :: vs2)
              omega
            · have h1 := List.cons.sizeOf_spec v1 (v2 :: vs2)
              omega
            · omega
            have hq := (ih (n - 1) ?_).2.1 (v2 :: vs2) ?_ (by simp) hwf1.2 rest f ?_
            rotate_left
            · have h1 := List.cons.sizeOf_spec v1 (v2 :: vs2)
              omega
            · have h1 := List.cons.sizeOf_spec v1 (v2 :: vs2)
              omega
            · omega
            have hsw1 : skipWs (',' :: (printElems (v2 :: vs2) ++ (']' :: rest)))
                = ',' :: (printElems (v2 :: vs2) ++ (']' :: rest)) :=
              skipWs_cons_notWs _ _ (by decide)
            have hsw2 : skipWs (printElems (v2 :: vs2) ++ (']' :: rest))
                = printElems (v2 :: vs2) ++ (']' :: rest) := by
              rw [show printElems (v2 :: vs2) ++ (']' :: rest)
                  = c2 :: (t2 ++ (X2 ++ (']' :: rest))) from by simp [hpe2, hpv2]]
              exact skipWs_cons_notWs _ _ hnws2
            rw [show printElems (v1 :: v2 :: vs2) ++ (']' :: rest)
                = printJson v1 ++ ((',' :: (printElems (v2 :: vs2) ++ (']' :: rest))))
              from by simp [hlen1]]
            rw [parseElems, hp]
            simp [hsw1, hsw2, hq]
  · intro ms hsz hne hwf rest fuel hfuel
    match ms with
    | [] => exact absurd rfl hne
    | (k, v1) :: ms2 =>
        have hwf1 : WFb v1 = true ∧ WFbMembers ms2 = true := by
          simpa [WFbMembers, Bool.and_eq_true] using hwf
        rcases printJson_cons v1 hwf1.1 with ⟨c1, t1, hpv1, hnws1, _, _⟩
        cases fuel with
        | zero => omega
        | succ f =>
        cases ms2 with
        | nil =>
            have hshape : printMembers [(k, v1)] ++ ('}' :: rest)
                = '"' :: (escapeList k.data ++ ('"' :: (':' ::
                    (printJson v1 ++ ('}' :: rest))))) := by
              simp [printMembers, printStr]
            have hlm : (printMembers [(k, v1)]).length
                = (printStr k).length + 1 + (printJson v1).length := by
              simp only [printMembers, List.length_append, List.length_cons]
              omega
            have hp := (ih (n - 1) ?_).1 v1 ?_ hwf1.1 ('}' :: rest) f
              (numBoundary_brace rest) ?_
            rotate_left
            · have h1 := List.cons.sizeOf_spec (k, v1) ([] : List (String × Json))
              omega
            · have h1 := List.cons.sizeOf_spec (k, v1) ([] : List (String × Json))
              have h2 : sizeOf ([] : List (String × Json)) = 1 := rfl
              have h3 : sizeOf (k, v1) = 1 + sizeOf k + sizeOf v1 := rfl
              omega
            · omega
            have hps : parseStringBody (escapeList k.data ++ ('"' :: (':' ::
                (printJson v1 ++ ('}' :: rest)))))
                = some (k.data, ':' :: (printJson v1 ++ ('}' :: rest))) :=
              parseStringBody_escape _ _
            have hsw1 : skipWs (':' :: (printJson v1 ++ ('}' :: rest)))
                = ':' :: (printJson v1 ++ ('}' :: rest)) :=
              skipWs_cons_notWs _ _ (by decide)
            have hsw2 : skipWs (printJson v1 ++ ('}' :: rest))
                = printJson v1 ++ ('}' :: rest) := by
              rw [show printJson v1 ++ ('}' :: rest)
                  = c1 :: (t1 ++ ('}' :: rest)) from by simp [hpv1]]
              exact skipWs_cons_notWs _ _ hnws1
            rw [hshape, parseMembers]
            simp [hps, hsw1, hsw2, hp, skipWs, stringMk_data]
        | cons m2 ms3 =>
            have hshape : printMembers ((k, v1) :: m2 :: ms3) ++ ('}' :: rest)
                = '"' :: (escapeList k.data ++ ('"' :: (':' ::
                    (printJson v1 ++ (',' ::
                      (printMembers (m2 :: ms3) ++ ('}' :: rest))))))) := by
              simp [printMembers, printStr]
            have hlm : (printMembers ((k, v1) :: m2 :: ms3)).length
                = (printStr k).length + 1 + (printJson v1).length + 1
                  + (printMembers (m2 :: ms3)).length := by
              simp only [printMembers, List.length_append, List.length_cons]
              omega
            have hp := (ih (n - 1) ?_).1 v1 ?_ hwf1.1
              (',' :: (printMembers (m2 :: ms3) ++ ('}' :: rest))) f
              (numBoundary_comma _) ?_
            rotate_left
            · have h1 := List.cons.sizeOf_spec (k, v1) (m2 :: ms3)
              omega
            · have h1 := List.cons.sizeOf_spec (k, v1) (m2 :: ms3)
              have h3 : sizeOf (k, v1) = 1 + sizeOf k + sizeOf v1 := rfl
              omega
            · omega
            have hr := (ih (n - 1) ?_).2.2 (m2 :: ms3) ?_ (by simp) hwf1.2 rest f ?_
            rotate_left
            · have h1 := List.cons.sizeOf_spec (k, v1) (m2 :: ms3)
              omega
            · have h1 := List.cons.sizeOf_spec (k, v1) (m2 :: ms3)
              omega
            · have hst : 2 ≤ (printStr k).length := by
                simp only [printStr, List.length_append, List.length_cons]
                omega
              omega
            have hm2 : ∃ k2 v2r, m2 = (k2, v2r) := ⟨m2.1, m2.2, rfl⟩
            rcases hm2 with ⟨k2, v2r, hm2⟩
            have hhead2 : ∃ T2, printMembers (m2 :: ms3) ++ ('}' :: rest)
                = '"' :: T2 := by
              subst hm2
              cases ms3 with
              | nil =>
                  exact ⟨escapeList k2.data ++ ('"' :: (':' ::
                    (printJson v2r ++ ('}' :: rest)))),
                    by simp [printMembers, printStr]⟩
              | cons m3 ms4 =>
                  exact ⟨escapeList k2.data ++ ('"' :: (':' ::
                    (printJson v2r ++ (',' ::
                      (printMembers (m3 :: ms4) ++ ('}' :: rest)))))),
                    by simp [printMembers, printStr]⟩
            rcases hhead2 with ⟨T2, hT2⟩
            have hps : parseStringBody (escapeList k.data ++ ('"' :: (':' ::
                (printJson v1 ++ (',' :: (printMembers (m2 :: ms3) ++ ('}' :: rest)))))))
                = some (k.data, ':' :: (printJson v1 ++ (',' ::
                    (printMembers (m2 :: ms3) ++ ('}' :: rest))))) :=
              parseStringBody_escape _ _
            have hsw1 : skipWs (':' :: (printJson v1 ++ (',' ::
                (printMembers (m2 :: ms3) ++ ('}' :: rest)))))
                = ':' :: (printJson v1 ++ (',' ::
                (printMembers (m2 :: ms3) ++ ('}' :: rest)))) :=
              skipWs_cons_notWs _ _ (by decide)
            have hsw2 : skipWs (printJson v1 ++ (',' ::
                (printMembers (m2 :: ms3) ++ ('}' :: rest))))
                = printJson v1 ++ (',' ::
                (printMembers (m2 :: ms3) ++ ('}' :: rest))) := by
              rw [show printJson v1 ++ (',' ::
                  (printMembers (m2 :: ms3) ++ ('}' :: rest)))
                  = c1 :: (t1 ++ (',' ::
                  (printMembers (m2 :: ms3) ++ ('}' :: rest)))) from by simp [hpv1]]
              exact skipWs_cons_notWs _ _ hnws1
            have hsw3 : skipWs (',' :: (printMembers (m2 :: ms3) ++ ('}' :: rest)))
                = ',' :: (printMembers (m2 :: ms3) ++ ('}' :: rest)) :=
              skipWs_cons_notWs _ _ (by decide)
            have hsw4 : skipWs (printMembers (m2 :: ms3) ++ ('}' :: rest))
                = printMembers (m2 :: ms3) ++ ('}' :: rest) := by
              rw [hT2]
              exact skipWs_cons_notWs _ _ (by decide)
            rw [hshape, parseMembers]
            simp [hps, hsw1, hsw2, hsw3, hsw4, hp, hr, stringMk_data]

/-- Top-level form of the parse-print round trip. -/
theorem parsePrint (v : Json) (hwf : WFb v = true) :
    ∀ rest fuel, numBoundary rest → (printJson v).length < fuel →
    parseValue fuel (printJson v ++ rest) = some (v, rest) :=
  (parsePrintAux (sizeOf v)).1 v (le_refl _) hwf

theorem parseTopLevel_print (v : Json) (hwf : WFb v = true) :
    parseTopLevel (printJson v) = some v := by
  rcases printJson_cons v hwf with ⟨c, t, hpv, hnws, _, _⟩
  have hsw : skipWs (printJson v) = printJson v := by
    rw [hpv]
    exact skipWs_cons_notWs _ _ hnws
  have hp : parseValue ((printJson v).length + 1) (printJson v ++ []) = some (v, []) :=
    parsePrint v hwf [] ((printJson v).length + 1) trivial (by omega)
  simp only [List.append_nil] at hp
  unfold parseTopLevel
  rw [hsw, hp]
  rfl

theorem deserCard_toJson (c : Card) : deserCard (Card.toJson c) = some c := rfl

theorem deserCards_map (cards : List Card) :
    deserCards (cards.map Card.toJson) = some cards := by
  induction cards with
  | nil => rfl
  | cons c cs ih =>
      simp [deserCards, deserCard_toJson, ih]

theorem deserDeck_toJson (d : DeckList) :
    deserDeck (DeckList.toJson d) = some d := by
  have hc := deserCards_map d.cards
  simp [DeckList.toJson, deserDeck, deserDeckFields, hc]

theorem wfb_cardJson (cards : List Card) :
    WFbList (cards.map Card.toJson) = true := by
  induction cards with
  | nil => rfl
  | cons c cs ih =>
      simp [WFbList, Card.toJson, WFb, WFbMembers, ih]

theorem wfb_deckJson (d : DeckList) : WFb (DeckList.toJson d) = true := by
  simp [DeckList.toJson, WFb, WFbMembers, WFbList, wfb_cardJson d.cards]

/-- The full round trip: decoding an encoded deck recovers it exactly. -/
theorem from_code_into_code (d : DeckList) :
    ∃ code, d.into_code = .ok code ∧ DeckList.from_code code = .ok d := by
  refine ⟨String.mk (b64encode (utf8Encode (printJson d.toJson))), rfl, ?_⟩
  unfold DeckList.from_code
  have hdata : (String.mk (b64encode (utf8Encode (printJson d.toJson)))).data
      = b64encode (utf8Encode (printJson d.toJson)) := rfl
  rw [hdata, b64decode_encode _ (utf8Encode_lt_256 _)]
  simp only [serdeJsonFromSlice, utf8Decode_encode,
    parseTopLevel_print d.toJson (wfb_deckJson d), deserDeck_toJson d]

/-! ### Supporting definitions and lemmas for the claims -/

instance {ε α : Type} [DecidableEq ε] [DecidableEq α] : DecidableEq (Except ε α)
  | .ok a, .ok b =>
      match decEq a b with
      | isTrue h => isTrue (by rw [h])
      | isFalse h => isFalse (by intro he; cases he; exact h rfl)
  | .error a, .error b =>
      match decEq a b with
      | isTrue h => isTrue (by rw [h])
      | isFalse h => isFalse (by intro he; cases he; exact h rfl)
  | .ok _, .error _ => isFalse (by intro h; cases h)
  | .error _, .ok _ => isFalse (by intro h; cases h)

/-- The fixed code string from the reference test suite (`VALID_CODE`). -/
def VALID_CODE : String := "eyJOYW1lIjoiVGhhbm9zIiwiQ2FyZHMiOlt7IkNhcmREZWZJZCI6IkFudE1hbiJ9LHsiQ2FyZERlZklkIjoiQWdlbnQxMyJ9LHsiQ2FyZERlZklkIjoiUXVpbmpldCJ9LHsiQ2FyZERlZklkIjoiQW5nZWxhIn0seyJDYXJkRGVmSWQiOiJPa295ZSJ9LHsiQ2FyZERlZklkIjoiQXJtb3IifSx7IkNhcmREZWZJZCI6IkZhbGNvbiJ9LHsiQ2FyZERlZklkIjoiTXlzdGlxdWUifSx7IkNhcmREZWZJZCI6IkxvY2tqYXcifSx7IkNhcmREZWZJZCI6IkthWmFyIn0seyJDYXJkRGVmSWQiOiJEZXZpbERpbm9zYXVyIn0seyJDYXJkRGVmSWQiOiJUaGFub3MifV19"

/-- The deck built by the reference test `encode_cards`. -/
def thanosDeck : DeckList :=
  (DeckList.new.set_name "Thanos").set_cards
    ["AntMan", "Agent13", "Quinjet", "Angela", "Okoye", "Armor",
     "Falcon", "Mystique", "Lockjaw", "KaZar", "DevilDinosaur", "Thanos"]

theorem wfbMembers_append (xs ys : List (String × Json)) :
    WFbMembers (xs ++ ys) = (WFbMembers xs && WFbMembers ys) := by
  induction xs with
  | nil => simp [WFbMembers]
  | cons m ms ih => simp [WFbMembers, ih, Bool.and_assoc]

theorem deserDeckFields_skip (extras : List (String × Json))
    (h : ∀ kv ∈ extras, kv.1 ≠ "Name" ∧ kv.1 ≠ "Cards")
    (nm : String) (cs : List Card) :
    deserDeckFields extras (some nm) (some cs) = some { name := nm, cards := cs } := by
  induction extras with
  | nil => rfl
  | cons kv ms ih =>
      have hk := h kv (by simp)
      have hrec := ih (fun m hm => h m (by simp [hm]))
      rcases kv with ⟨k, v⟩
      simp at hk
      simp [deserDeckFields, hk.1, hk.2, hrec]

theorem cardsVec_set_cards (d : DeckList) (cs : List String) :
    (d.set_cards cs).cardsVec = cs := by
  simp [DeckList.set_cards, DeckList.cardsVec]
  exact List.map_id cs

/-! ### The claims -/

/-- C1: for every `DeckList` value, with arbitrary name text and arbitrary
ordered card-identifier sequence (including empty name, empty card list,
duplicate identifiers and unicode text), `from_code` applied to the
`Ok`-result of `into_code` returns `Ok` of a deck equal to the original,
preserving the card order exactly. -/
theorem C1_round_trip (d : DeckList) :
    ∃ code, d.into_code = Except.ok code ∧ DeckList.from_code code = Except.ok d :=
  from_code_into_code d

/-- C2: `into_code` returns the unpadded standard-alphabet Base64 encoding of
the UTF-8 JSON document that is an object with exactly the two top-level
members `Name` (the deck name) and `Cards` (the ordered sequence of one-key
`CardDefId` objects), and no padding character appears in the output. -/
theorem C2_encoding_shape (d : DeckList) :
    d.into_code = Except.ok (String.mk (b64encode (utf8Encode (printJson
      (Json.obj [("Name", Json.str d.name),
        ("Cards", Json.arr (d.cards.map
          (fun c => Json.obj [("CardDefId", Json.str c.name)])))]))))) ∧
    ∀ code, d.into_code = Except.ok code → '=' ∉ code.data := by
  constructor
  · rfl
  · intro code hcode
    have : code = String.mk (b64encode (utf8Encode (printJson d.toJson))) := by
      cases hcode
      rfl
    subst this
    intro hmem
    exact b64encode_ne_pad _ '=' hmem rfl

/-- C3: any input that is not valid Base64 in the standard-alphabet no-pad
scheme — a character outside the alphabet, a padding character, or a length
invalid for the no-pad scheme — makes `from_code` fail with the
`DecodingError` variant. -/
theorem C3_bad_base64 (s : String)
    (h : (∃ c ∈ s.data, b64CharVal c = none) ∨ '=' ∈ s.data ∨
      s.data.length % 4 = 1) :
    ∃ e, DeckList.from_code s = Except.error (DeckListError.DecodingError e) := by
  have herr : ∃ e, b64decode s.data = Except.error e := by
    rcases h with h | h | h
    · exact b64decode_err_of_badchar s.data h
    · exact b64decode_err_of_badchar s.data ⟨'=', h, by decide⟩
    · exact b64decode_err_of_badlen s.data h
  rcases herr with ⟨e, he⟩
  refine ⟨e, ?_⟩
  unfold DeckList.from_code
  rw [he]

theorem C3_bad_base64_witness :
    ((∃ c ∈ ("not base64!" : String).data, b64CharVal c = none) ∨
      '=' ∈ ("not base64!" : String).data ∨
      ("not base64!" : String).data.length % 4 = 1) ∧
    (∃ e, DeckList.from_code "not base64!"
      = Except.error (DeckListError.DecodingError e)) :=
  ⟨Or.inl ⟨' ', by decide, by decide⟩,
   C3_bad_base64 "not base64!" (Or.inl ⟨' ', by decide, by decide⟩)⟩

/-- C4: any input that is valid unpadded Base64 but whose decoded bytes do
not parse as the expected record makes `from_code` fail with
`InvalidDeckInput`, a variant distinct from `DecodingError`. -/
theorem C4_bad_content (s : String) (bytes : List Nat)
    (h1 : b64decode s.data = Except.ok bytes)
    (h2 : serdeJsonFromSlice bytes = none) :
    DeckList.from_code s = Except.error DeckListError.InvalidDeckInput ∧
    ∀ e, DeckListError.InvalidDeckInput ≠ DeckListError.DecodingError e := by
  constructor
  · unfold DeckList.from_code
    rw [h1]
    simp [h2]
  · intro e h
    cases h

theorem C4_bad_content_witness :
    b64decode ("W10" : String).data = Except.ok [91, 93] ∧
    serdeJsonFromSlice [91, 93] = none ∧
    DeckList.from_code "W10" = Except.error DeckListError.InvalidDeckInput :=
  ⟨by decide, by decide,
   (C4_bad_content "W10" [91, 93] (by decide) (by decide)).1⟩

/-- C5: `into_code` returns `Ok` for every deck value; the `EncodingError`
branch is unreachable because serialization of this string-only record
cannot fail. -/
theorem C5_encode_total (d : DeckList) :
    ∃ s, d.into_code = Except.ok s :=
  ⟨String.mk (b64encode (utf8Encode (printJson d.toJson))), rfl⟩

/-- C7: encoding a freshly constructed deck (empty name, empty card list)
succeeds, and decoding the resulting code succeeds and yields a deck with
empty name and empty card list. -/
theorem C7_empty_deck :
    DeckList.new.into_code = Except.ok "eyJOYW1lIjoiIiwiQ2FyZHMiOltdfQ" ∧
    DeckList.from_code "eyJOYW1lIjoiIiwiQ2FyZHMiOltdfQ"
      = Except.ok { name := "", cards := [] } := by
  constructor
  · decide
  · decide

set_option maxRecDepth 100000 in
/-- C6: encoding the reference 12-card Thanos deck yields exactly the fixed
code string of the test suite, and decoding that code yields a deck whose
card list has length 12 and starts with `AntMan`. -/
theorem C6_thanos :
    thanosDeck.into_code = Except.ok VALID_CODE ∧
    ∃ d, DeckList.from_code VALID_CODE = Except.ok d ∧
      d.cardsVec.length = 12 ∧ d.cardsVec.headD "" = "AntMan" := by
  have h1 : thanosDeck.into_code = Except.ok VALID_CODE := by decide
  have h2 : DeckList.from_code VALID_CODE = Except.ok thanosDeck := by
    rcases from_code_into_code thanosDeck with ⟨code, hc, hd⟩
    rw [h1] at hc
    cases hc
    exact hd
  exact ⟨h1, thanosDeck, h2, by decide, by decide⟩

/-- C8: for every ordered identifier sequence given to `set_cards`
(duplicates included), encoding and then decoding yields a deck whose
`cards` accessor returns exactly that sequence, in order. -/
theorem C8_set_cards_round_trip (d : DeckList) (cards : List String) :
    ∃ code, (d.set_cards cards).into_code = Except.ok code ∧
      ∃ d2, DeckList.from_code code = Except.ok d2 ∧ d2.cardsVec = cards := by
  rcases from_code_into_code (d.set_cards cards) with ⟨code, h1, h2⟩
  exact ⟨code, h1, d.set_cards cards, h2, cardsVec_set_cards d cards⟩

/-- C9: a valid unpadded Base64 encoding of a JSON object with the required
`Name` and `Cards` members plus arbitrary additional unknown keys decodes
successfully, the unknown keys silently ignored; and the required key names
are matched case-sensitively (the lowercase spelling is rejected). -/
theorem C9_unknown_keys (nm : String) (cards : List Card)
    (extras : List (String × Json))
    (hk : ∀ kv ∈ extras, kv.1 ≠ "Name" ∧ kv.1 ≠ "Cards")
    (hwf : WFbMembers extras = true) :
    DeckList.from_code (String.mk (b64encode (utf8Encode (printJson (Json.obj
      (("Name", Json.str nm) :: ("Cards", Json.arr (cards.map Card.toJson))
        :: extras))))))
      = Except.ok { name := nm, cards := cards } ∧
    DeckList.from_code "eyJjYXJkcyI6W10sIm5hbWUiOiJYIn0"
      = Except.error DeckListError.InvalidDeckInput := by
  constructor
  · have hwfJ : WFb (Json.obj (("Name", Json.str nm)
        :: ("Cards", Json.arr (cards.map Card.toJson)) :: extras)) = true := by
      simp [WFb, WFbMembers, wfb_cardJson cards, hwf]
    unfold DeckList.from_code
    have hdata : (String.mk (b64encode (utf8Encode (printJson (Json.obj
        (("Name", Json.str nm) :: ("Cards", Json.arr (cards.map Card.toJson))
          :: extras)))))).data
        = b64encode (utf8Encode (printJson (Json.obj (("Name", Json.str nm)
          :: ("Cards", Json.arr (cards.map Card.toJson)) :: extras)))) := rfl
    rw [hdata, b64decode_encode _ (utf8Encode_lt_256 _)]
    simp only [serdeJsonFromSlice, utf8Decode_encode,
      parseTopLevel_print _ hwfJ]
    have hdes : deserDeck (Json.obj (("Name", Json.str nm)
        :: ("Cards", Json.arr (cards.map Card.toJson)) :: extras))
        = some { name := nm, cards := cards } := by
      simp [deserDeck, deserDeckFields, deserCards_map,
        deserDeckFields_skip extras hk]
    rw [hdes]
  · decide

theorem C9_unknown_keys_witness :
    (∀ kv ∈ ([("Extra", Json.null)] : List (String × Json)),
      kv.1 ≠ "Name" ∧ kv.1 ≠ "Cards") ∧
    WFbMembers [("Extra", Json.null)] = true ∧
    DeckList.from_code (String.mk (b64encode (utf8Encode (printJson (Json.obj
      (("Name", Json.str "X") :: ("Cards", Json.arr (([] : List Card).map Card.toJson))
        :: [("Extra", Json.null)]))))))
      = Except.ok { name := "X", cards := [] } :=
  ⟨by decide, by decide,
   (C9_unknown_keys "X" [] [("Extra", Json.null)] (by decide) (by decide)).1⟩

/-- C10: the two mutators are frame-disjoint — `set_name` replaces the name
and leaves the card sequence unchanged, and `set_cards` replaces the card
sequence and leaves the name unchanged. -/
theorem C10_frame (d : DeckList) (nm : String) (cs : List String) :
    (d.set_name nm).cards = d.cards ∧ (d.set_name nm).name = nm ∧
    (d.set_cards cs).name = d.name ∧
    (d.set_cards cs).cards = cs.map (fun s => { name := s }) :=
  ⟨rfl, rfl, rfl, rfl⟩
